import Mathlib

/-!
Verification of the PEAS agent/environment simulation (src/PEAS.py).

The embedding is shallow: Python objects become Lean structures, object
identity becomes a natural-number id into an explicit heap, mutation becomes
explicit state passing, and the two abstract methods `percept` and
`execute_action` of the base `Environment` class become function parameters
supplied by a concrete environment.  A Python call that raises (calling a
`None` program) is modelled with `Except Unit`.
-/

set_option maxHeartbeats 1000000

namespace PEAS

/-- Lookup in a Python dict modelled as an association list:
`table.get(k)` returns the value at the first matching key, else `None`. -/
def dictGet {K V : Type} [DecidableEq K] : List (K × V) → K → Option V
  | [], _ => none
  | (k, v) :: rest, key => if k = key then some v else dictGet rest key

/-- Python dict assignment `d[k] = v`: replace the first binding of `k`
if present, otherwise append a fresh binding. -/
def dictSet {K V : Type} [DecidableEq K] : List (K × V) → K → V → List (K × V)
  | [], key, v => [(key, v)]
  | (k, w) :: rest, key, v =>
    if k = key then (key, v) :: rest else (k, w) :: dictSet rest key v

/-- Embedding of `TableDrivenAgentProgram(table)` (src/PEAS.py lines 29-42).  The Python
factory closes over a private mutable list `percepts`; the returned
`program(percept)` appends the new percept and looks the whole tuple up with
`table.get`.  Here the closure state (the percept history) is passed
explicitly: one invocation maps the pre-call history and the new percept to
the post-call history together with the returned action (`none` = Python
`None`). -/
def TableDrivenAgentProgram {P : Type} [DecidableEq P]
    (table : List (List P × String)) :
    List P → P → List P × Option String :=
  fun percepts percept =>
    let ps := percepts ++ [percept]
    (ps, dictGet table ps)

/-- Feed a sequence of percepts one at a time to a single
`TableDrivenAgentProgram` instance whose history currently is `hist`,
recording for each invocation the exact key handed to `table.get` and the
action returned. -/
def feedTrace {P : Type} [DecidableEq P] (table : List (List P × String)) :
    List P → List P → List (List P × Option String)
  | _, [] => []
  | hist, p :: rest =>
    let r := TableDrivenAgentProgram table hist p
    r :: feedTrace table r.1 rest

/-- A tiny concrete decision table used by witnesses. -/
def tableW : List (List String × String) :=
  [(["see"], "act"), (["see", "hear"], "stop")]

/-- A `Thing` of src/PEAS.py, the mutable state of one Python object.  The
`Agent` subclass is folded in: `isAgent` models `isinstance(thing, Agent)`;
`alive` models the `alive` attribute (a plain `Thing` never sets it, so
`hasattr(self, "alive") and self.alive` is modelled by `alive = false` for
plain things); `program` is the decision function (Python `None` = `none`),
whose private closure state (the percept history of
`TableDrivenAgentProgram`) is made explicit as `st`. -/
structure Thing (σ P L : Type) where
  isAgent : Bool
  alive : Bool
  performance : Int
  location : L
  program : Option (σ → P → σ × Option String)
  st : σ

/-- Embedding of `Thing.is_alive` (src/PEAS.py lines 8-10). -/
def Thing.is_alive {σ P L : Type} (t : Thing σ P L) : Bool := t.alive

/-- The base `Environment` class.  Python object identity is modelled by a
natural-number id into an explicit `heap`; the collections `self.thing` and
`self.agents` are lists of ids (the source really names the first list
`thing`).  `world` is the environment-specific state of a concrete subclass
(for `TrivialDoctorEnvironment`, the status dict). -/
structure Environment (W σ P L : Type) where
  world : W
  heap : Nat → Thing σ P L
  thing : List Nat
  agents : List Nat

/-- Heap update: mutate the object with id `i`. -/
def hupd {σ P L : Type} (h : Nat → Thing σ P L) (i : Nat) (t : Thing σ P L) :
    Nat → Thing σ P L :=
  fun j => if j = i then t else h j

/-- Embedding of `Environment.__init__` (src/PEAS.py lines 71-73): both collections start
empty. -/
def Environment.init {W σ P L : Type} (w : W) (h : Nat → Thing σ P L) :
    Environment W σ P L :=
  ⟨w, h, [], []⟩

/-- Embedding of `Environment.is_done` (src/PEAS.py lines 87-89): done when no agent in
`self.agents` is alive. -/
def Environment.is_done {W σ P L : Type} (e : Environment W σ P L) : Bool :=
  !(e.agents.any fun i => (e.heap i).is_alive)

/-- First loop of `Environment.step` (src/PEAS.py lines 94-99): for each
agent in order, if `agent.alive` invoke its program on `self.percept(agent)`
(appending the returned action), else append the placeholder action `""`
without invoking the program.  The abstract method `percept` is the
parameter `pc` (a concrete environment reads the world and the agent's
attributes).  Invoking a `None` program is Python's `TypeError`, modelled by
`Except.error ()`.  Besides the updated heap (programs mutate their closure
state) and the action list, the result records, for each agent in order, the
percept its program was invoked with (`none` for a dead agent, whose program
is not invoked). -/
def phase1 {W σ P L : Type} (pc : W → Thing σ P L → P) (w : W) :
    (Nat → Thing σ P L) → List Nat →
      Except Unit ((Nat → Thing σ P L) × List (Option String) × List (Option P))
  | h, [] => Except.ok (h, [], [])
  | h, i :: rest =>
    let a := h i
    if a.alive then
      match a.program with
      | some f =>
        let r := f a.st (pc w a)
        match phase1 pc w (hupd h i { a with st := r.1 }) rest with
        | Except.ok (h', acts, pts) =>
          Except.ok (h', r.2 :: acts, some (pc w a) :: pts)
        | Except.error u => Except.error u
      | none => Except.error ()
    else
      match phase1 pc w h rest with
      | Except.ok (h', acts, pts) =>
        Except.ok (h', some "" :: acts, none :: pts)
      | Except.error u => Except.error u

/-- Second loop of `Environment.step` (src/PEAS.py lines 100-101): for each
`(agent, action)` pair of `zip(self.agents, actions)` apply
`self.execute_action(agent, action)`.  The abstract method `execute_action`
is the parameter `ex`, which updates the world and the agent object.  The
third component of the result records the `(agent, action)` pairs on which
`ex` was invoked, in order. -/
def phase2 {W σ P L : Type}
    (ex : W → Thing σ P L → Option String → W × Thing σ P L) :
    W → (Nat → Thing σ P L) → List (Nat × Option String) →
      W × (Nat → Thing σ P L) × List (Nat × Option String)
  | w, h, [] => (w, h, [])
  | w, h, (i, act) :: rest =>
    let r := ex w (h i) act
    let q := phase2 ex r.1 (hupd h i r.2) rest
    (q.1, q.2.1, (i, act) :: q.2.2)

/-- Embedding of `Environment.step` (src/PEAS.py lines 91-101) instrumented with the
percept trace of phase 1 and the execution trace of phase 2: on a done
environment it is a no-op, otherwise phase 1 computes every action before
phase 2 applies any of them. -/
def Environment.stepFull {W σ P L : Type} (pc : W → Thing σ P L → P)
    (ex : W → Thing σ P L → Option String → W × Thing σ P L)
    (e : Environment W σ P L) :
    Except Unit
      (Environment W σ P L × List (Option P) × List (Nat × Option String)) :=
  if e.is_done then Except.ok (e, [], [])
  else
    match phase1 pc e.world e.heap e.agents with
    | Except.error u => Except.error u
    | Except.ok (h1, acts, _pts) =>
      let q := phase2 ex e.world h1 (e.agents.zip acts)
      Except.ok ({ e with world := q.1, heap := q.2.1 }, _pts, q.2.2)

/-- Embedding of `Environment.step` proper: the instrumented step with the traces
projected away. -/
def Environment.step {W σ P L : Type} (pc : W → Thing σ P L → P)
    (ex : W → Thing σ P L → Option String → W × Thing σ P L)
    (e : Environment W σ P L) : Except Unit (Environment W σ P L) :=
  (e.stepFull pc ex).map (fun r => r.1)

/-- Embedding of `Environment.run` (src/PEAS.py lines 103-108): up to `steps` iterations,
each checking `is_done()` first and returning at once when done, else
calling `step()` (whose exception, if any, propagates). -/
def Environment.run {W σ P L : Type} (pc : W → Thing σ P L → P)
    (ex : W → Thing σ P L → Option String → W × Thing σ P L) :
    Nat → Environment W σ P L → Except Unit (Environment W σ P L)
  | 0, e => Except.ok e
  | n + 1, e =>
    if e.is_done then Except.ok e
    else
      match e.step pc ex with
      | Except.error u => Except.error u
      | Except.ok e' => Environment.run pc ex n e'

/-- Instrumentation of `Environment.run`: the list of environment states at
which `run` actually called `step()`, in order. -/
def runTrace {W σ P L : Type} (pc : W → Thing σ P L → P)
    (ex : W → Thing σ P L → Option String → W × Thing σ P L) :
    Nat → Environment W σ P L → List (Environment W σ P L)
  | 0, _ => []
  | n + 1, e =>
    if e.is_done then []
    else
      match e.step pc ex with
      | Except.error _ => [e]
      | Except.ok e' => e :: runTrace pc ex n e'

/-- Embedding of `Environment.add_thing` (src/PEAS.py lines 110-121).  A duplicate (the
same object id already in `self.thing`) is only reported (`print`), leaving
everything unchanged.  Otherwise the object's location is set to the
explicit argument if one was passed (Python `location is not None`), else to
`default_location(thing)` — the hook is the parameter `dl`; the id is
appended to `thing`, and if the object is an `Agent` its performance is
reset to 0 and the id is appended to `agents`. -/
def Environment.add_thing {W σ P L : Type} (dl : Thing σ P L → L)
    (e : Environment W σ P L) (i : Nat) (locArg : Option L) :
    Environment W σ P L :=
  if i ∈ e.thing then e
  else
    let t0 := e.heap i
    let t1 : Thing σ P L :=
      { t0 with location := match locArg with | some l => l | none => dl t0 }
    if t1.isAgent then
      { e with heap := hupd e.heap i { t1 with performance := 0 },
               thing := e.thing ++ [i],
               agents := e.agents ++ [i] }
    else
      { e with heap := hupd e.heap i t1, thing := e.thing ++ [i] }

/-- Embedding of `Environment.delete_thing` (src/PEAS.py lines 123-130).
`self.thing.remove(thing)` removes the first occurrence; its `ValueError` on
a non-member is caught and only reported, leaving the list unchanged
(`List.erase` is also unchanged there, but the branch mirrors the
try/except).  Then the id is removed from `agents` only if present. -/
def Environment.delete_thing {W σ P L : Type} (e : Environment W σ P L)
    (i : Nat) : Environment W σ P L :=
  { e with
    thing := if i ∈ e.thing then e.thing.erase i else e.thing,
    agents := if i ∈ e.agents then e.agents.erase i else e.agents }

/-- Locations of the doctor world: `room_A, room_B = (0, 0), (1, 0)`
(src/PEAS.py line 44). -/
abbrev Loc : Type := Nat × Nat

def room_A : Loc := (0, 0)

def room_B : Loc := (1, 0)

/-- The world state of `TrivialDoctorEnvironment` (src/PEAS.py lines
132-138): a dict from location to `"healthy"`/`"unhealthy"` (its random
initial value is irrelevant to the properties below). -/
structure DoctorWorld where
  status : List (Loc × String)

/-- Embedding of `TrivialDoctorEnvironment.percept` (src/PEAS.py lines 140-142): the
agent's location and that location's status.  (A location absent from the
dict would be Python's `KeyError`; `dictGet` returns `none` there, a case
never reached for agents placed in room A or B.) -/
def TrivialDoctorEnvironment.percept {σ P : Type} (w : DoctorWorld)
    (a : Thing σ P Loc) : Loc × Option String :=
  (a.location, dictGet w.status a.location)

/-- Embedding of `TrivialDoctorEnvironment.execute_action` (src/PEAS.py lines 144-157).
The temperature the Python code reads interactively is the externally
supplied measurement `tem` (a rational stands in for the float).  `"Right"`
and `"Left"` move the agent and cost 1 performance; `"treat"` adds 10
performance only when `tem >= 98.5` but sets the current location's status
to `"healthy"` unconditionally; any other action (including `None` and the
dead-agent placeholder `""`) is silently ignored. -/
def TrivialDoctorEnvironment.execute_action {σ P : Type} (tem : ℚ)
    (w : DoctorWorld) (a : Thing σ P Loc) (action : Option String) :
    DoctorWorld × Thing σ P Loc :=
  if action = some "Right" then
    (w, { a with location := room_B, performance := a.performance - 1 })
  else if action = some "Left" then
    (w, { a with location := room_A, performance := a.performance - 1 })
  else if action = some "treat" then
    let a' :=
      if (98.5 : ℚ) ≤ tem then { a with performance := a.performance + 10 }
      else a
    ({ status := dictSet w.status a.location "healthy" }, a')
  else (w, a)

/-- Action computed for one agent by phase 1 of `step` as a function of the
pre-tick world and the agent's pre-tick state: a dead agent gets the
placeholder `""` without its program being invoked; a live agent gets
whatever its program returns on the percept.  (A live agent whose program is
`none` makes `step` raise instead — see `phase1_error_of_none_program` — so
the `some ""` returned for that unreachable case is never used under that
theorem's hypotheses.) -/
def actOf {W σ P L : Type} (pc : W → Thing σ P L → P) (w : W)
    (a : Thing σ P L) : Option String :=
  if a.alive then
    match a.program with
    | some f => (f a.st (pc w a)).2
    | none => some ""
  else some ""

/-- Percept handed to one agent's program by phase 1 of `step`, as a
function of the pre-tick world and the agent's pre-tick state; `none` for a
dead agent, whose program is not invoked. -/
def ptOf {W σ P L : Type} (pc : W → Thing σ P L → P) (w : W)
    (a : Thing σ P L) : Option P :=
  if a.alive then some (pc w a) else none

/-- The documented invariant: the agents collection is a subset of the
things collection. -/
def agentsSubset {W σ P L : Type} (e : Environment W σ P L) : Prop :=
  ∀ i ∈ e.agents, i ∈ e.thing

/-- Strengthened invariant actually maintained by the operations: the subset
property together with the agents list holding no duplicates (registration
refuses duplicates, so this holds on every reachable environment; it is what
makes the subset survive `delete_thing`, since `list.remove` drops a single
occurrence). -/
def goodEnv {W σ P L : Type} (e : Environment W σ P L) : Prop :=
  agentsSubset e ∧ e.agents.Nodup

/-- Concrete decision function used by witnesses. -/
def f0 : Nat → Nat → Nat × Option String := fun s p => (s + p, some "go")

/-- Concrete `percept` override used by witnesses: the agent observes the
world value. -/
def pc0 : Nat → Thing Nat Nat Nat → Nat := fun w _ => w

/-- Concrete `execute_action` override used by witnesses. -/
def ex0 : Nat → Thing Nat Nat Nat → Option String → Nat × Thing Nat Nat Nat :=
  fun w a _ => (w + 1, a)

/-- Concrete `default_location` override used by witnesses. -/
def dl0 : Thing Nat Nat Nat → Nat := fun _ => 5

/-- A live agent with a program, used by witnesses. -/
def thing0 : Thing Nat Nat Nat :=
  { isAgent := true, alive := true, performance := 0, location := 0,
    program := some f0, st := 0 }

/-- A live agent constructed with `program=None`, used by witnesses. -/
def thingNoProg : Thing Nat Nat Nat :=
  { isAgent := true, alive := true, performance := 0, location := 0,
    program := none, st := 0 }

def heap0 : Nat → Thing Nat Nat Nat := fun _ => thing0

/-- A two-agent environment used by witnesses. -/
def e0 : Environment Nat Nat Nat Nat :=
  { world := 7, heap := heap0, thing := [0, 1], agents := [0, 1] }

def heapBad : Nat → Thing Nat Nat Nat :=
  fun i => if i = 0 then thingNoProg else thing0

/-- An environment holding one live agent whose program is `None`. -/
def eBad : Environment Nat Nat Nat Nat :=
  { world := 0, heap := heapBad, thing := [0], agents := [0] }

/-- An environment used by the `delete_thing` witness. -/
def e9 : Environment Nat Nat Nat Nat :=
  { world := 0, heap := heap0, thing := [4, 5], agents := [5] }

/-- The doctor world with room A unhealthy, used by the treat
counterexample. -/
def docW0 : DoctorWorld :=
  { status := [(room_A, "unhealthy"), (room_B, "healthy")] }

/-- A doctor agent standing in room A, used by the treat counterexample. -/
def docA0 : Thing Nat Nat Loc :=
  { isAgent := true, alive := true, performance := 0, location := room_A,
    program := none, st := 0 }

-- ### Theorems

theorem feedTrace_keys {P : Type} [DecidableEq P]
    (table : List (List P × String)) (ps : List P) :
    ∀ hist : List P,
      (feedTrace table hist ps).map Prod.fst =
        (List.range ps.length).map (fun k => hist ++ ps.take (k + 1)) := by
  induction ps with
  | nil => intro hist; rfl
  | cons p rest ih =>
    intro hist
    have h1 : (feedTrace table hist (p :: rest)).map Prod.fst =
        (hist ++ [p]) ::
          (feedTrace table (hist ++ [p]) rest).map Prod.fst := rfl
    rw [h1, ih (hist ++ [p])]
    rw [List.length_cons, List.range_succ_eq_map, List.map_cons,
      List.map_map]
    refine congrArg₂ List.cons (by simp) ?_
    apply List.map_congr_left
    intro k _
    simp [List.append_assoc]

theorem feedTrace_actions {P : Type} [DecidableEq P]
    (table : List (List P × String)) (ps : List P) :
    ∀ hist : List P,
      (feedTrace table hist ps).map Prod.snd =
        ((feedTrace table hist ps).map Prod.fst).map (dictGet table) := by
  induction ps with
  | nil => intro hist; rfl
  | cons p rest ih =>
    intro hist
    simp only [feedTrace, List.map_cons]
    rw [ih]
    rfl

/-- C1.  History accumulation for `TableDrivenAgentProgram`: starting from
the empty history of a fresh factory call, the key handed to `table.get` on
the k-th invocation (k = 1..N, i.e. index k-1) is exactly the tuple of the
first k percepts in order, and the action returned on that invocation is the
table lookup at exactly that key; in particular the history only grows, each
key extending the previous one by the new percept. -/
theorem tableDrivenProgram_history_accumulation {P : Type} [DecidableEq P]
    (table : List (List P × String)) (ps : List P) :
    (feedTrace table [] ps).map Prod.fst =
        (List.range ps.length).map (fun k => ps.take (k + 1)) ∧
      (feedTrace table [] ps).map Prod.snd =
        (List.range ps.length).map (fun k => dictGet table (ps.take (k + 1))) := by
  constructor
  · have h := feedTrace_keys table ps []
    simpa using h
  · rw [feedTrace_actions table ps []]
    have h := feedTrace_keys table ps []
    rw [h, List.map_map]
    apply List.map_congr_left
    intro k _
    simp

theorem dictGet_eq_some_of_mem {K V : Type} [DecidableEq K]
    {l : List (K × V)} (hnd : (l.map Prod.fst).Nodup) {k : K} {v : V}
    (hmem : (k, v) ∈ l) : dictGet l k = some v := by
  induction l with
  | nil => cases hmem
  | cons hd tl ih =>
    obtain ⟨k', v'⟩ := hd
    simp only [List.map_cons, List.nodup_cons] at hnd
    rcases List.mem_cons.mp hmem with heq | htl
    · obtain ⟨h1, h2⟩ := Prod.mk.injEq .. ▸ heq.symm
      simp [dictGet, h1, h2]
    · have hk : k' ≠ k := by
        intro hkk
        exact hnd.1 (hkk ▸ (List.mem_map.mpr ⟨(k, v), htl, rfl⟩))
      simp [dictGet, hk, ih hnd.2 htl]

theorem dictGet_eq_none_of_not_mem {K V : Type} [DecidableEq K]
    {l : List (K × V)} {k : K} (h : k ∉ l.map Prod.fst) :
    dictGet l k = none := by
  induction l with
  | nil => rfl
  | cons hd tl ih =>
    obtain ⟨k', v'⟩ := hd
    simp only [List.map_cons, List.mem_cons] at h
    push_neg at h
    have hk : ¬ k' = k := fun hkk => h.1 hkk.symm
    simp [dictGet, hk, ih h.2]

/-- C2.  Table exactness: with the keys of the table pairwise distinct (as
the keys of the Python dict are), if the accumulated percept sequence of an
invocation matches a table key exactly, the program returns the table's
action for that key; if no key matches, it returns the "no action" sentinel
`none` (Python `None`).  The program is a total function, so no exception is
possible. -/
theorem tableDrivenProgram_table_exactness {P : Type} [DecidableEq P]
    (table : List (List P × String)) (hist : List P) (p : P)
    (hnd : (table.map Prod.fst).Nodup) :
    (∀ a : String, (hist ++ [p], a) ∈ table →
        (TableDrivenAgentProgram table hist p).2 = some a) ∧
      ((hist ++ [p]) ∉ table.map Prod.fst →
        (TableDrivenAgentProgram table hist p).2 = none) := by
  constructor
  · intro a hmem
    exact dictGet_eq_some_of_mem hnd hmem
  · intro habs
    exact dictGet_eq_none_of_not_mem habs

theorem tableDrivenProgram_table_exactness_witness :
    (TableDrivenAgentProgram tableW [] "see").2 = some "act" ∧
      (TableDrivenAgentProgram tableW ["see"] "smell").2 = none := by
  refine ⟨?_, ?_⟩
  · exact (tableDrivenProgram_table_exactness tableW [] "see"
      (by decide)).1 "act" (by decide)
  · exact (tableDrivenProgram_table_exactness tableW ["see"] "smell"
      (by decide)).2 (by decide)

theorem hupd_same {σ P L : Type} (h : Nat → Thing σ P L) (i : Nat)
    (t : Thing σ P L) : hupd h i t i = t := by
  simp [hupd]

theorem hupd_other {σ P L : Type} (h : Nat → Thing σ P L) {i j : Nat}
    (t : Thing σ P L) (hij : j ≠ i) : hupd h i t j = h j := by
  simp [hupd, hij]

theorem phase1_cons_dead {W σ P L : Type} (pc : W → Thing σ P L → P) (w : W)
    (h : Nat → Thing σ P L) (i : Nat) (rest : List Nat)
    (ha : (h i).alive = false) :
    phase1 pc w h (i :: rest) =
      match phase1 pc w h rest with
      | Except.ok (h', acts, pts) =>
        Except.ok (h', some "" :: acts, none :: pts)
      | Except.error u => Except.error u := by
  simp only [phase1, ha, Bool.false_eq_true, if_false]

theorem phase1_cons_live {W σ P L : Type} (pc : W → Thing σ P L → P) (w : W)
    (h : Nat → Thing σ P L) (i : Nat) (rest : List Nat)
    (f : σ → P → σ × Option String) (ha : (h i).alive = true)
    (hf : (h i).program = some f) :
    phase1 pc w h (i :: rest) =
      match phase1 pc w
          (hupd h i { h i with st := (f (h i).st (pc w (h i))).1 }) rest with
      | Except.ok (h', acts, pts) =>
        Except.ok (h', (f (h i).st (pc w (h i))).2 :: acts,
          some (pc w (h i)) :: pts)
      | Except.error u => Except.error u := by
  simp only [phase1, ha, if_true, hf]

theorem phase1_ok_of_programs {W σ P L : Type} (pc : W → Thing σ P L → P)
    (w : W) :
    ∀ (agents : List Nat) (h : Nat → Thing σ P L),
      agents.Nodup →
      (∀ i ∈ agents, (h i).alive = true → ((h i).program).isSome = true) →
      ∃ h', phase1 pc w h agents =
        Except.ok (h', agents.map (fun i => actOf pc w (h i)),
          agents.map (fun i => ptOf pc w (h i))) := by
  intro agents
  induction agents with
  | nil => exact fun h _ _ => ⟨h, rfl⟩
  | cons i rest ih =>
    intro h hnd hpr
    rw [List.nodup_cons] at hnd
    have hne : ∀ j ∈ rest, j ≠ i := by
      intro j hj hji
      exact hnd.1 (hji ▸ hj)
    cases halive : (h i).alive with
    | false =>
      obtain ⟨h', hrec⟩ :=
        ih h hnd.2 (fun j hj => hpr j (List.mem_cons_of_mem i hj))
      refine ⟨h', ?_⟩
      rw [phase1_cons_dead pc w h i rest halive, hrec]
      simp [actOf, ptOf, halive]
    | true =>
      have hs := hpr i (List.mem_cons_self i rest) halive
      obtain ⟨f, hf⟩ := Option.isSome_iff_exists.mp hs
      have hrest : ∀ j ∈ rest,
          ((hupd h i { h i with st := (f (h i).st (pc w (h i))).1 } j).alive = true →
            ((hupd h i { h i with st := (f (h i).st (pc w (h i))).1 } j).program).isSome = true) := by
        intro j hj
        rw [hupd_other h _ (hne j hj)]
        exact hpr j (List.mem_cons_of_mem i hj)
      obtain ⟨h', hrec⟩ :=
        ih (hupd h i { h i with st := (f (h i).st (pc w (h i))).1 }) hnd.2 hrest
      refine ⟨h', ?_⟩
      have hmapa : rest.map
            (fun j => actOf pc w (hupd h i { h i with st := (f (h i).st (pc w (h i))).1 } j)) =
          rest.map (fun j => actOf pc w (h j)) := by
        apply List.map_congr_left
        intro j hj
        rw [hupd_other h _ (hne j hj)]
      have hmapp : rest.map
            (fun j => ptOf pc w (hupd h i { h i with st := (f (h i).st (pc w (h i))).1 } j)) =
          rest.map (fun j => ptOf pc w (h j)) := by
        apply List.map_congr_left
        intro j hj
        rw [hupd_other h _ (hne j hj)]
      rw [hmapa, hmapp] at hrec
      rw [phase1_cons_live pc w h i rest f halive hf, hrec]
      simp [actOf, ptOf, halive, hf]

/-- C3.  Two-phase tick ordering: during a `step()` on a non-done
environment with pairwise distinct registered agents, each of whose live
agents has a program (so phase 1 completes), the percept handed to every
agent's program is computed from the environment's world state and the
agent's own pre-tick state — i.e. before any action of this tick is applied
(phase 2, which alone applies actions, receives the completed action list
and the pre-tick world) — and a dead agent's entry is `none`: its decision
function is not invoked, it merely gets the placeholder action. -/
theorem step_percepts_reflect_pre_tick_state {W σ P L : Type}
    (pc : W → Thing σ P L → P)
    (ex : W → Thing σ P L → Option String → W × Thing σ P L)
    (e : Environment W σ P L) (hnd : e.agents.Nodup)
    (hpr : ∀ i ∈ e.agents, (e.heap i).alive = true →
      ((e.heap i).program).isSome = true)
    (hnotdone : e.is_done = false) :
    (e.stepFull pc ex).map (fun r => r.2.1) =
      Except.ok (e.agents.map (fun i => ptOf pc e.world (e.heap i))) := by
  obtain ⟨h', hrec⟩ := phase1_ok_of_programs pc e.world e.agents e.heap hnd hpr
  simp only [Environment.stepFull, hnotdone, Bool.false_eq_true, if_false,
    hrec, Except.map]

theorem step_percepts_reflect_pre_tick_state_witness :
    (e0.stepFull pc0 ex0).map (fun r => r.2.1) =
      Except.ok [some 7, some 7] := by
  have h := step_percepts_reflect_pre_tick_state pc0 ex0 e0 (by decide)
    (fun i _ _ => rfl) rfl
  rw [h]
  rfl

theorem phase1_error_of_none_program {W σ P L : Type}
    (pc : W → Thing σ P L → P) (w : W) :
    ∀ (agents : List Nat) (h : Nat → Thing σ P L) (i : Nat),
      i ∈ agents → (h i).alive = true → (h i).program = none →
      phase1 pc w h agents = Except.error () := by
  intro agents
  induction agents with
  | nil => intro h i hmem; cases hmem
  | cons j rest ih =>
    intro h i hmem halive hprog
    rcases List.mem_cons.mp hmem with hij | hirest
    · subst hij
      simp only [phase1, halive, if_true, hprog]
    · cases hjalive : (h j).alive with
      | false =>
        rw [phase1_cons_dead pc w h j rest hjalive,
          ih h i hirest halive hprog]
      | true =>
        cases hjf : (h j).program with
        | none => simp only [phase1, hjalive, if_true, hjf]
        | some f =>
          have hij : i ≠ j := by
            intro hh
            rw [hh, hjf] at hprog
            cases hprog
          rw [phase1_cons_live pc w h j rest f hjalive hjf,
            ih (hupd h j { h j with st := (f (h j).st (pc w (h j))).1 }) i
              hirest
              (by rw [hupd_other h _ hij]; exact halive)
              (by rw [hupd_other h _ hij]; exact hprog)]

/-- C5 counterexample.  `eBad` is an environment containing one live agent
constructed with `program=None` (the `Agent.__init__` default).  Contrary to
the claim, `step()` does not skip that agent's `program(percept)` call: the
call `agent.program(self.percept(agent))` is `None(...)`, a `TypeError`, so
`step()` fails. -/
theorem step_none_program_counterexample :
    eBad.step pc0 ex0 = Except.error () := rfl

/-- C5 amended.  An agent may be constructed with a null (`None`) decision
function, but a `step()` on an environment whose agents include a live agent
with no program fails (Python raises `TypeError` when the `None` program is
called); the call is neither skipped nor treated as a no-op. -/
theorem step_none_program_fails {W σ P L : Type} (pc : W → Thing σ P L → P)
    (ex : W → Thing σ P L → Option String → W × Thing σ P L)
    (e : Environment W σ P L) (i : Nat) (hmem : i ∈ e.agents)
    (halive : (e.heap i).alive = true)
    (hprog : (e.heap i).program = none) :
    e.step pc ex = Except.error () := by
  have hany : e.agents.any (fun j => (e.heap j).is_alive) = true :=
    List.any_eq_true.mpr ⟨i, hmem, by simpa [Thing.is_alive] using halive⟩
  have hnotdone : e.is_done = false := by
    simp [Environment.is_done, hany]
  rw [Environment.step, Environment.stepFull]
  rw [hnotdone]
  rw [phase1_error_of_none_program pc e.world e.agents e.heap i hmem halive
    hprog]
  rfl

theorem step_none_program_fails_witness :
    eBad.step pc0 ex0 = Except.error () ∧ (eBad.heap 0).alive = true := by
  refine ⟨?_, rfl⟩
  exact step_none_program_fails pc0 ex0 eBad 0 (by decide) rfl rfl

theorem phase2_trace {W σ P L : Type}
    (ex : W → Thing σ P L → Option String → W × Thing σ P L) :
    ∀ (l : List (Nat × Option String)) (w : W) (h : Nat → Thing σ P L),
      (phase2 ex w h l).2.2 = l := by
  intro l
  induction l with
  | nil => intro w h; rfl
  | cons x rest ih =>
    intro w h
    obtain ⟨i, act⟩ := x
    simp [phase2, ih]

theorem zip_map_self {α β : Type} (g : α → β) :
    ∀ l : List α, l.zip (l.map g) = l.map (fun a => (a, g a)) := by
  intro l
  induction l with
  | nil => rfl
  | cons x rest ih => simp [ih]

/-- C10.  During `step()` on a non-done environment (agents pairwise
distinct and every live agent holding a program, so phase 1 completes),
`execute_action` is invoked exactly once for every agent of the agents
collection, in order — the executed `(agent, action)` pairs are exactly the
agents list paired with their phase-1 actions; a dead agent's action is the
empty-string placeholder `""`; and the doctor environment's
`execute_action` silently ignores that placeholder, changing neither the
world's status nor the agent. -/
theorem step_executes_each_agent_once {W σ P L : Type}
    (pc : W → Thing σ P L → P)
    (ex : W → Thing σ P L → Option String → W × Thing σ P L)
    (e : Environment W σ P L) (hnd : e.agents.Nodup)
    (hpr : ∀ i ∈ e.agents, (e.heap i).alive = true →
      ((e.heap i).program).isSome = true)
    (hnotdone : e.is_done = false) :
    (e.stepFull pc ex).map (fun r => r.2.2) =
        Except.ok (e.agents.map (fun i => (i, actOf pc e.world (e.heap i)))) ∧
      (∀ a : Thing σ P L, a.alive = false → actOf pc e.world a = some "") ∧
      ∀ (tem : ℚ) (w : DoctorWorld) (a : Thing σ P Loc),
        TrivialDoctorEnvironment.execute_action tem w a (some "") = (w, a) := by
  refine ⟨?_, ?_, ?_⟩
  · obtain ⟨h', hrec⟩ :=
      phase1_ok_of_programs pc e.world e.agents e.heap hnd hpr
    simp only [Environment.stepFull, hnotdone, Bool.false_eq_true, if_false,
      hrec, Except.map]
    rw [phase2_trace, zip_map_self]
  · intro a ha
    simp [actOf, ha]
  · intro tem w a
    simp [TrivialDoctorEnvironment.execute_action]

theorem step_executes_each_agent_once_witness :
    (e0.stepFull pc0 ex0).map (fun r => r.2.2) =
      Except.ok [(0, some "go"), (1, some "go")] := by
  have h := (step_executes_each_agent_once pc0 ex0 e0 (by decide)
    (fun i _ _ => rfl) rfl).1
  rw [h]
  rfl

theorem runTrace_length_le {W σ P L : Type} (pc : W → Thing σ P L → P)
    (ex : W → Thing σ P L → Option String → W × Thing σ P L) :
    ∀ (n : Nat) (e : Environment W σ P L),
      (runTrace pc ex n e).length ≤ n := by
  intro n
  induction n with
  | zero => intro e; simp [runTrace]
  | succ n ih =>
    intro e
    rw [runTrace]
    split
    · simp
    · split
      · simp
      · simpa using Nat.succ_le_succ (ih _)

theorem runTrace_not_done {W σ P L : Type} (pc : W → Thing σ P L → P)
    (ex : W → Thing σ P L → Option String → W × Thing σ P L) :
    ∀ (n : Nat) (e s : Environment W σ P L),
      s ∈ runTrace pc ex n e → s.is_done = false := by
  intro n
  induction n with
  | zero => intro e s hs; simp [runTrace] at hs
  | succ n ih =>
    intro e s hs
    rw [runTrace] at hs
    by_cases hd : e.is_done = true
    · simp [hd] at hs
    · rw [if_neg (by simpa using hd)] at hs
      cases hstep : e.step pc ex with
      | error u =>
        rw [hstep] at hs
        have hse : s = e := by simpa using hs
        simpa [hse] using hd
      | ok e' =>
        rw [hstep] at hs
        rcases List.mem_cons.mp hs with hse | hsr
        · subst hse; simpa using hd
        · exact ih e' s hsr

/-- C4.  Termination policy: `is_done()` is true exactly when every agent in
the agents collection has a false liveness flag; and `run(steps)` checks
`is_done()` before each `step()` call, calls `step()` at most `steps` times
(the states at which `step()` is called are `runTrace`, whose length is the
number of calls), and every state at which `step()` is called is not done —
so `step()` is never called once `is_done()` is true, and `run` terminates
(it is structurally recursive on the bound). -/
theorem is_done_and_run_bounds {W σ P L : Type} (pc : W → Thing σ P L → P)
    (ex : W → Thing σ P L → Option String → W × Thing σ P L) (n : Nat)
    (e : Environment W σ P L) :
    (e.is_done = true ↔ ∀ i ∈ e.agents, (e.heap i).alive = false) ∧
      (runTrace pc ex n e).length ≤ n ∧
      ∀ s ∈ runTrace pc ex n e, s.is_done = false := by
  refine ⟨?_, runTrace_length_le pc ex n e,
    fun s hs => runTrace_not_done pc ex n e s hs⟩
  simp [Environment.is_done, Thing.is_alive, List.any_eq_true,
    Bool.not_eq_true']

theorem is_done_and_run_bounds_witness :
    (runTrace pc0 ex0 3 e0).length ≤ 3 ∧ e0.is_done = false :=
  ⟨(is_done_and_run_bounds pc0 ex0 3 e0).2.1, by decide⟩

theorem add_thing_mem_self {W σ P L : Type} (dl : Thing σ P L → L)
    (e : Environment W σ P L) (i : Nat) (l : Option L) :
    i ∈ (Environment.add_thing dl e i l).thing := by
  by_cases hmem : i ∈ e.thing
  · rw [Environment.add_thing, if_pos hmem]
    exact hmem
  · by_cases hag : (e.heap i).isAgent = true <;>
      simp [Environment.add_thing, hmem, hag]

/-- C7.  Registration: adding the same object a second time (same identity)
is a reported no-op — the environment, including both collections and the
original registration's location, is exactly what it was after the first
add, whatever location argument the second call passes; and a successful add
of an agent object resets its performance to 0 (even if it was nonzero from
a prior environment) and appends it to both collections. -/
theorem add_thing_registration {W σ P L : Type} (dl : Thing σ P L → L)
    (e : Environment W σ P L) (i : Nat) (l₁ l₂ : Option L) :
    Environment.add_thing dl (Environment.add_thing dl e i l₁) i l₂ =
        Environment.add_thing dl e i l₁ ∧
      (i ∉ e.thing → (e.heap i).isAgent = true →
        (Environment.add_thing dl e i l₁).agents = e.agents ++ [i] ∧
          ((Environment.add_thing dl e i l₁).heap i).performance = 0 ∧
          (Environment.add_thing dl e i l₁).thing = e.thing ++ [i]) := by
  constructor
  · have hmem := add_thing_mem_self dl e i l₁
    rw [Environment.add_thing, if_pos hmem]
  · intro hmem hag
    refine ⟨?_, ?_, ?_⟩
    · simp [Environment.add_thing, hmem, hag]
    · simp [Environment.add_thing, hmem, hag, hupd_same]
    · simp [Environment.add_thing, hmem, hag]

theorem add_thing_registration_witness :
    (Environment.add_thing dl0 (Environment.init 0 heap0) 3 none).agents =
        [3] ∧
      ((Environment.add_thing dl0 (Environment.init 0 heap0) 3 none).heap
          3).performance = 0 := by
  have h := (add_thing_registration dl0 (Environment.init 0 heap0) 3
    none none).2 (by decide) rfl
  exact ⟨by rw [h.1]; rfl, h.2.1⟩

theorem step_preserves_collections {W σ P L : Type}
    (pc : W → Thing σ P L → P)
    (ex : W → Thing σ P L → Option String → W × Thing σ P L)
    {e e' : Environment W σ P L} (hstep : e.step pc ex = Except.ok e') :
    e'.thing = e.thing ∧ e'.agents = e.agents := by
  rw [Environment.step, Environment.stepFull] at hstep
  by_cases hd : e.is_done = true
  · rw [if_pos hd] at hstep
    have : e = e' := by simpa [Except.map] using hstep
    simp [this]
  · rw [if_neg (by simpa using hd)] at hstep
    cases hp : phase1 pc e.world e.heap e.agents with
    | error u => rw [hp] at hstep; cases hstep
    | ok r =>
      obtain ⟨h1, acts, pts⟩ := r
      rw [hp] at hstep
      have he : ({ e with
            world := (phase2 ex e.world h1 (e.agents.zip acts)).1,
            heap := (phase2 ex e.world h1 (e.agents.zip acts)).2.1 } :
          Environment W σ P L) = e' := by
        simpa [Except.map] using hstep
      rw [← he]
      exact ⟨rfl, rfl⟩

theorem run_preserves_collections {W σ P L : Type}
    (pc : W → Thing σ P L → P)
    (ex : W → Thing σ P L → Option String → W × Thing σ P L) :
    ∀ (n : Nat) {e e' : Environment W σ P L},
      Environment.run pc ex n e = Except.ok e' →
      e'.thing = e.thing ∧ e'.agents = e.agents := by
  intro n
  induction n with
  | zero =>
    intro e e' hrun
    have : e = e' := by simpa [Environment.run] using hrun
    simp [this]
  | succ n ih =>
    intro e e' hrun
    rw [Environment.run] at hrun
    by_cases hd : e.is_done = true
    · rw [if_pos hd] at hrun
      have : e = e' := by simpa using hrun
      simp [this]
    · rw [if_neg (by simpa using hd)] at hrun
      cases hstep : e.step pc ex with
      | error u => rw [hstep] at hrun; cases hrun
      | ok e₂ =>
        rw [hstep] at hrun
        obtain ⟨h1, h2⟩ := step_preserves_collections pc ex hstep
        obtain ⟨h3, h4⟩ := ih hrun
        exact ⟨h3.trans h1, h4.trans h2⟩

theorem add_thing_new_agent {W σ P L : Type} (dl : Thing σ P L → L)
    (e : Environment W σ P L) (i : Nat) (l : Option L) (hmem : i ∉ e.thing)
    (hag : (e.heap i).isAgent = true) :
    (Environment.add_thing dl e i l).thing = e.thing ++ [i] ∧
      (Environment.add_thing dl e i l).agents = e.agents ++ [i] := by
  rw [Environment.add_thing, if_neg hmem]
  constructor <;> simp [hag]

theorem add_thing_new_nonagent {W σ P L : Type} (dl : Thing σ P L → L)
    (e : Environment W σ P L) (i : Nat) (l : Option L) (hmem : i ∉ e.thing)
    (hag : (e.heap i).isAgent = false) :
    (Environment.add_thing dl e i l).thing = e.thing ++ [i] ∧
      (Environment.add_thing dl e i l).agents = e.agents := by
  rw [Environment.add_thing, if_neg hmem]
  constructor <;> simp [hag]

theorem goodEnv_add_thing {W σ P L : Type} (dl : Thing σ P L → L)
    (e : Environment W σ P L) (i : Nat) (l : Option L) (hg : goodEnv e) :
    goodEnv (Environment.add_thing dl e i l) := by
  obtain ⟨hsub, hnd⟩ := hg
  by_cases hmem : i ∈ e.thing
  · rw [Environment.add_thing, if_pos hmem]
    exact ⟨hsub, hnd⟩
  · have hiag : i ∉ e.agents := fun hia => hmem (hsub i hia)
    cases hag : (e.heap i).isAgent with
    | true =>
      obtain ⟨hth, hagl⟩ := add_thing_new_agent dl e i l hmem hag
      constructor
      · intro j hj
        rw [hagl] at hj
        rw [hth]
        rcases List.mem_append.mp hj with hja | hji
        · exact List.mem_append_left _ (hsub j hja)
        · exact List.mem_append_right _ hji
      · rw [hagl]
        exact hnd.append (List.nodup_singleton i)
          (fun x hx hxi => hiag ((List.mem_singleton.mp hxi) ▸ hx))
    | false =>
      obtain ⟨hth, hagl⟩ := add_thing_new_nonagent dl e i l hmem hag
      constructor
      · intro j hj
        rw [hagl] at hj
        rw [hth]
        exact List.mem_append_left _ (hsub j hj)
      · rw [hagl]
        exact hnd

theorem goodEnv_delete_thing {W σ P L : Type} (e : Environment W σ P L)
    (i : Nat) (hg : goodEnv e) : goodEnv (e.delete_thing i) := by
  obtain ⟨hsub, hnd⟩ := hg
  constructor
  · intro j hj
    simp only [Environment.delete_thing] at hj ⊢
    have hja : j ∈ e.agents ∧ j ≠ i := by
      by_cases hia : i ∈ e.agents
      · rw [if_pos hia] at hj
        exact ⟨(hnd.mem_erase_iff.mp hj).2, (hnd.mem_erase_iff.mp hj).1⟩
      · rw [if_neg hia] at hj
        exact ⟨hj, fun hji => hia (hji ▸ hj)⟩
    by_cases hit : i ∈ e.thing
    · rw [if_pos hit]
      exact (List.mem_erase_of_ne hja.2).mpr (hsub j hja.1)
    · rw [if_neg hit]
      exact hsub j hja.1
  · simp only [Environment.delete_thing]
    by_cases hia : i ∈ e.agents
    · rw [if_pos hia]
      exact hnd.erase i
    · rw [if_neg hia]
      exact hnd

/-- C8.  The invariant "agents collection ⊆ things collection" holds after
construction (`Environment.__init__` leaves both empty) and is preserved by
every operation: `add_thing`, `delete_thing`, `step` and `run`.  The
preservation goes through the strengthened invariant `goodEnv` (subset plus
no duplicate agent registrations), which every reachable environment
satisfies since `add_thing` refuses duplicates; `goodEnv` implies the
claimed subset property. -/
theorem agents_subset_of_things_invariant {W σ P L : Type}
    (pc : W → Thing σ P L → P)
    (ex : W → Thing σ P L → Option String → W × Thing σ P L)
    (dl : Thing σ P L → L) (w : W) (h0 : Nat → Thing σ P L)
    (e e' : Environment W σ P L) (i : Nat) (l : Option L) (n : Nat) :
    goodEnv (Environment.init w h0) ∧
      (goodEnv e → goodEnv (Environment.add_thing dl e i l)) ∧
      (goodEnv e → goodEnv (e.delete_thing i)) ∧
      (goodEnv e → e.step pc ex = Except.ok e' → goodEnv e') ∧
      (goodEnv e → Environment.run pc ex n e = Except.ok e' → goodEnv e') ∧
      (goodEnv e → agentsSubset e) := by
  refine ⟨⟨fun j hj => absurd hj (List.not_mem_nil j), List.nodup_nil⟩,
    goodEnv_add_thing dl e i l, goodEnv_delete_thing e i, ?_, ?_,
    fun hg => hg.1⟩
  · intro hg hstep
    obtain ⟨h1, h2⟩ := step_preserves_collections pc ex hstep
    exact ⟨fun j hj => h1 ▸ hg.1 j (h2 ▸ hj), h2 ▸ hg.2⟩
  · intro hg hrun
    obtain ⟨h1, h2⟩ := run_preserves_collections pc ex n hrun
    exact ⟨fun j hj => h1 ▸ hg.1 j (h2 ▸ hj), h2 ▸ hg.2⟩

theorem agents_subset_of_things_invariant_witness :
    goodEnv (Environment.add_thing dl0 e0 5 none) :=
  (agents_subset_of_things_invariant pc0 ex0 dl0 0 heap0 e0 e0 5 none
    0).2.1 ⟨fun i hi => hi, by decide⟩

/-- C9.  Removal: with the collections duplicate-free (as on every reachable
environment), `delete_thing` of a member removes it from both the things and
agents collections; `delete_thing` of a non-member of the things collection
is a reported, recoverable condition (the caught `ValueError` leaves the
things collection unchanged), and the removal from the agents subset is
still attempted — it happens when the id is there and is a no-op when it is
absent. -/
theorem delete_thing_removal {W σ P L : Type} (e : Environment W σ P L)
    (i : Nat) (hth : e.thing.Nodup) (hag : e.agents.Nodup) :
    (i ∈ e.thing → i ∉ (e.delete_thing i).thing ∧
      i ∉ (e.delete_thing i).agents) ∧
      (i ∉ e.thing → (e.delete_thing i).thing = e.thing ∧
        (e.delete_thing i).agents = e.agents.erase i) ∧
      (i ∉ e.agents → (e.delete_thing i).agents = e.agents) := by
  refine ⟨?_, ?_, ?_⟩
  · intro hmem
    constructor
    · simp only [Environment.delete_thing, if_pos hmem]
      exact hth.not_mem_erase
    · simp only [Environment.delete_thing]
      by_cases hia : i ∈ e.agents
      · rw [if_pos hia]
        exact hag.not_mem_erase
      · rw [if_neg hia]
        exact hia
  · intro hmem
    refine ⟨by simp [Environment.delete_thing, hmem], ?_⟩
    simp only [Environment.delete_thing]
    by_cases hia : i ∈ e.agents
    · rw [if_pos hia]
    · rw [if_neg hia, List.erase_of_not_mem hia]
  · intro hia
    simp [Environment.delete_thing, hia]

theorem delete_thing_removal_witness :
    5 ∉ (e9.delete_thing 5).thing ∧ 5 ∉ (e9.delete_thing 5).agents :=
  (delete_thing_removal e9 5 (by decide) (by decide)).1 (by decide)

/-- C6 counterexample.  The claim makes both the +10 reward and the setting
of the status to `"healthy"` contingent on the measurement exceeding the
threshold 98.5.  At measurement exactly 98.5 — which does not exceed 98.5 —
the code grants the +10 reward anyway (its test is `tem >= 98.5`), and at
measurement 97 — no reward — it still sets the status to `"healthy"`,
because the assignment sits outside the threshold test. -/
theorem doctor_treat_counterexample :
    ¬ (98.5 : ℚ) > (98.5 : ℚ) ∧
      ((TrivialDoctorEnvironment.execute_action (98.5 : ℚ) docW0 docA0
          (some "treat")).2).performance = 10 ∧
      ((TrivialDoctorEnvironment.execute_action (98.5 : ℚ) docW0 docA0
          (some "treat")).1).status =
        [(room_A, "healthy"), (room_B, "healthy")] ∧
      ((TrivialDoctorEnvironment.execute_action (97 : ℚ) docW0 docA0
          (some "treat")).2).performance = 0 ∧
      ((TrivialDoctorEnvironment.execute_action (97 : ℚ) docW0 docA0
          (some "treat")).1).status =
        [(room_A, "healthy"), (room_B, "healthy")] := by
  refine ⟨by norm_num, ?_, ?_, ?_, ?_⟩ <;>
    · norm_num [TrivialDoctorEnvironment.execute_action, docW0, docA0,
        dictSet, room_A, room_B]
      decide

/-- C6 amended.  In the doctor environment, executing `"treat"` always sets
the current location's status to `"healthy"`, whatever the externally
supplied measurement is (the assignment is unconditional); only the +10
performance reward is contingent on the measurement, and it is granted
exactly when the measurement is at least 98.5 (`tem >= 98.5`, so the
threshold itself qualifies — with such a qualifying measurement performance
increases by exactly 10); the agent's location is unchanged by `"treat"`. -/
theorem doctor_treat_behavior {σ P : Type} (tem : ℚ) (w : DoctorWorld)
    (a : Thing σ P Loc) :
    ((TrivialDoctorEnvironment.execute_action tem w a
          (some "treat")).1).status =
        dictSet w.status a.location "healthy" ∧
      ((TrivialDoctorEnvironment.execute_action tem w a
          (some "treat")).2).performance =
        (if (98.5 : ℚ) ≤ tem then a.performance + 10 else a.performance) ∧
      ((TrivialDoctorEnvironment.execute_action tem w a
          (some "treat")).2).location = a.location := by
  by_cases htem : (98.5 : ℚ) ≤ tem <;>
    simp [TrivialDoctorEnvironment.execute_action, htem]

end PEAS
